import Mathlib

/-!
Shallow embedding of the logseq-property-viewer core (src/core.py, src/cache.py,
src/ui.py, src/nicegui_ui.py) and proofs about the claims of its specification.

Python strings are modelled as `List Char`; Python dicts (which preserve
insertion order and update values in place) as association lists with a
set-or-update operation; file mtimes as integers (only their ordering is used).
-/

set_option autoImplicit false

namespace LogseqPV

/-- Python strings, modelled as lists of characters. -/
abbrev Str := List Char

/-- Convert a Lean string literal to the `List Char` model. -/
def s2l (s : String) : Str := s.data

/-- Python `str.strip()` : remove leading and trailing whitespace. -/
def pyStrip (s : Str) : Str :=
  ((s.dropWhile Char.isWhitespace).reverse.dropWhile Char.isWhitespace).reverse

/-- Python `str.lstrip('- ')` : remove every leading `'-'` or `' '` character
(from `parse_properties`, which strips list markers before matching). -/
def pyLStripDashSpace (s : Str) : Str :=
  s.dropWhile (fun c => c = '-' ∨ c = ' ')

/-- Python `str.strip('"\'')` : remove all leading and trailing straight
double- or single-quote characters (from `evaluate_condition`). -/
def pyStripQuotes (s : Str) : Str :=
  let q : Char → Bool := fun c => c = '"' ∨ c = '\''
  ((s.dropWhile q).reverse.dropWhile q).reverse

/-- Python `s.startswith(pre)` : the first argument is a prefix of the second. -/
def startsWithL : Str → Str → Bool
  | [], _ => true
  | _ :: _, [] => false
  | a :: as0, b :: bs0 => a = b && startsWithL as0 bs0

/-- Python `needle in hay` for strings: substring containment. -/
def containsSub (needle : Str) : Str → Bool
  | [] => startsWithL needle []
  | c :: rest => startsWithL needle (c :: rest) || containsSub needle rest

/-- Python `s.split(sep, 1)` when `sep` is a single character that occurs in
`s`: the part before the first occurrence and the part after it.  (When the
character does not occur the code never takes this branch; the model then
returns `(s, [])`.) -/
def splitOnce (c : Char) : Str → Str × Str
  | [] => ([], [])
  | x :: rest =>
      if x = c then ([], rest)
      else
        let p := splitOnce c rest
        (x :: p.1, p.2)

/-- Python `s.split(c)` for a single-character separator: all parts, empty
parts kept (used for `block_content.split('\n')`). -/
def splitChar (c : Char) : Str → List Str
  | [] => [[]]
  | x :: rest =>
      if x = c then [] :: splitChar c rest
      else
        match splitChar c rest with
        | [] => [[x]]
        | h :: t => (x :: h) :: t

/-- Python `s.lower()` (ASCII model). -/
def toLowerS (s : Str) : Str := s.map Char.toLower

/-- Association-list lookup, the model of Python `d[k]` / `k in d`. -/
def alookup {α : Type} : List (Str × α) → Str → Option α
  | [], _ => none
  | (k, v) :: rest, key => if k = key then some v else alookup rest key

/-- Python `d[k] = v` on an insertion-ordered dict: update the value in place
when the key is present, append the pair otherwise.  (Python dicts hold each
key at most once, so replacing the first occurrence is exact.) -/
def pyDictSet {α : Type} : List (Str × α) → Str → α → List (Str × α)
  | [], k, v => [(k, v)]
  | pr :: rest, k, v =>
      if pr.1 = k then (k, v) :: rest else pr :: pyDictSet rest k v

/-- Python `d.pop(k, None)` / key removal, as seen through the mapping.
(Python dicts hold each key at most once.) -/
def pyDictPop {α : Type} : List (Str × α) → Str → List (Str × α)
  | [], _ => []
  | pr :: rest, k =>
      if pr.1 = k then pyDictPop rest k else pr :: pyDictPop rest k

/-! ### Property Extractor (src/core.py) -/

/-- Position of the `::` separator chosen by the regex `^\s*(\S+)::\s*(.*)`
inside the leading non-whitespace token: the greedy `\S+` makes the key the
longest possible, i.e. the separator is the last index `i ≥ 1` of `tok` with
`tok[i] = tok[i+1] = ':'`. -/
def isSepAt (tok : Str) (i : Nat) : Bool :=
  decide (1 ≤ i) && (tok.get? i == some ':') && (tok.get? (i + 1) == some ':')

/-- The separator index picked by the regex, if any. -/
def lastSep (tok : Str) : Option Nat :=
  ((List.range tok.length).filter (isSepAt tok)).getLast?

/-- The match of `re.compile(r'^\s*(\S+)::\s*(.*)').match(line)`, returning
`(group 1, group 2)` on success. -/
def matchKV (line : Str) : Option (Str × Str) :=
  let rest := line.dropWhile Char.isWhitespace
  let tok := rest.takeWhile (fun c => ¬ c.isWhitespace)
  match lastSep tok with
  | some i => some (tok.take i, (rest.drop (i + 2)).dropWhile Char.isWhitespace)
  | none => none

/-- One line of `parse_properties`: the regex match on the line with leading
list markers stripped, followed by `key, value = group(1).strip(),
group(2).strip()` and the `if key and value` guard. -/
def lineProp (line : Str) : Option (Str × Str) :=
  match matchKV (pyLStripDashSpace line) with
  | some (g1, g2) =>
      let k := pyStrip g1
      let v := pyStrip g2
      if k ≠ [] ∧ v ≠ [] then some (k, v) else none
  | none => none

/-- The dict of extracted properties. -/
abbrev StrDict := List (Str × Str)

/-- The loop body of `parse_properties`: a matching line sets
`properties[key] = value`, anything else leaves the dict unchanged. -/
def propStep (d : StrDict) (line : Str) : StrDict :=
  match lineProp line with
  | some (k, v) => pyDictSet d k v
  | none => d

/-- `parse_properties(block_content)` from src/core.py. -/
def parse_properties (block : Str) : StrDict :=
  (splitChar '\n' block).foldl propStep []

/-- The key/value pairs extracted from a block's lines, in line order
(before the dict semantics collapses duplicated keys). -/
def extractedPairs (block : Str) : List (Str × Str) :=
  (splitChar '\n' block).filterMap lineProp

/-- One extracted block: `{"page": ..., "content": ..., "properties": ...}`. -/
structure Block where
  page : Str
  content : Str
  properties : StrDict
  deriving DecidableEq

/-- `re.split(r'\n(?=- )', s)` : split at every newline that is immediately
followed by `"- "`; the newline is consumed, the `"- "` is kept with the
following chunk. -/
def splitNlDash : Str → List Str
  | [] => [[]]
  | c :: rest =>
      if c = '\n' ∧ startsWithL (s2l "- ") rest then
        [] :: splitNlDash rest
      else
        match splitNlDash rest with
        | [] => [[c]]
        | h :: t => (c :: h) :: t

/-- The loop body of `_process_single_file`: skip blocks without `"::"`,
parse the rest, and keep a block only when it yielded at least one property. -/
def blockStep (stem : Str) (acc : List Block) (bc : Str) : List Block :=
  if ¬ containsSub (s2l "::") bc then acc
  else
    let props := parse_properties bc
    if props ≠ [] then acc ++ [⟨stem, bc, props⟩] else acc

/-- `_process_single_file(md_file)` from src/core.py, as a pure function of
the file's stem (name without extension) and its text.  The I/O and the
enclosing `try/except` live in the Synchronizer model. -/
def process_single_file (stem content : Str) : List Block :=
  (splitNlDash ('\n' :: content)).foldl (blockStep stem) []

/-! ### Cache Store (src/cache.py) -/

/-- One cached file entry as loaded from JSON: the `"mtime"` and `"blocks"`
fields may be absent (`entry.get("mtime", 0)` / `entry.get("blocks", [])`).
Timestamps are modelled as integers: only their ordering is used. -/
structure CEntry where
  mtimeField : Option Int
  blocksField : Option (List Block)
  deriving DecidableEq

/-- The per-graph cache: an insertion-ordered mapping from relative path to
entry, modelled as an association list with distinct keys. -/
abbrev Cache := List (Str × CEntry)

/-- `file_info.get("blocks", [])`. -/
def blocksOf (e : CEntry) : List Block := e.blocksField.getD []

/-- `get_all_blocks_from_cache(cache_data)` from src/cache.py: start from an
empty list and `extend` it with each entry's blocks in iteration order. -/
def get_all_blocks_from_cache (c : Cache) : List Block :=
  c.foldl (fun acc pr => acc ++ blocksOf pr.2) []

/-- Outcomes of opening, decoding and JSON-parsing the cache file. -/
inductive CacheFileContent : Type
  | absent
  | ioError
  | badUtf8
  | badJson
  | good (c : Cache)
  deriving DecidableEq

/-- The filesystem state the Cache Store touches: whether the cache directory
exists, and the content class of this graph's cache file. -/
structure FsState where
  cacheDirExists : Bool
  cacheFile : CacheFileContent
  deriving DecidableEq

/-- Python exceptions that can escape the Cache Store. -/
inductive PyError : Type
  | unicodeDecodeError
  deriving DecidableEq

/-- `get_cache_dir()` : `mkdir(exist_ok=True)` — ensures the directory
exists and returns (the state after) it. -/
def get_cache_dir (fs : FsState) : FsState :=
  { fs with cacheDirExists := true }

/-- `load_cache(graph_path)` from src/cache.py.  The `except` clause catches
only `json.JSONDecodeError` and `IOError`; a cache file whose bytes are not
valid UTF-8 makes `f.read()` inside `json.load` raise `UnicodeDecodeError`,
which is a `ValueError` and escapes. -/
def load_cache (fs : FsState) : Except PyError Cache × FsState :=
  let fs1 := get_cache_dir fs
  match fs1.cacheFile with
  | .absent => (.ok [], fs1)
  | .ioError => (.ok [], fs1)
  | .badUtf8 => (.error .unicodeDecodeError, fs1)
  | .badJson => (.ok [], fs1)
  | .good c => (.ok c, fs1)

/-- `save_cache(graph_path, cache_data)` from src/cache.py; `writeOk = false`
models an `IOError` during the write, which is swallowed. -/
def save_cache (fs : FsState) (c : Cache) (writeOk : Bool) : FsState :=
  let fs1 := get_cache_dir fs
  if writeOk then { fs1 with cacheFile := .good c } else fs1

/-- `clear_all_cache()` from src/cache.py; `rmtreeOk = false` models an
`OSError` from `shutil.rmtree`.  Note the call to `get_cache_dir()` first
(re)creates the directory. -/
def clear_all_cache (fs : FsState) (rmtreeOk : Bool) : Bool × FsState :=
  let fs1 := get_cache_dir fs
  if fs1.cacheDirExists then
    if rmtreeOk then (true, { cacheDirExists := false, cacheFile := .absent })
    else (false, fs1)
  else (true, fs1)

/-! ### Query Evaluator (src/ui.py `_perform_search_on_cache` and the
identical logic in src/nicegui_ui.py) -/

/-- `evaluate_condition(properties, condition)`. -/
def evaluate_condition (props : StrDict) (cond : Str) : Bool :=
  let c := pyStrip cond
  if startsWithL (s2l "has:") c then (alookup props (c.drop 4)).isSome
  else if containsSub [ '~' ] c then
    let p := splitOnce '~' c
    match alookup props p.1 with
    | some pv => containsSub (toLowerS p.2) (toLowerS pv)
    | none => false
  else if containsSub [ ':' ] c then
    let p := splitOnce ':' c
    match alookup props p.1 with
    | some pv => decide (pyStrip pv = pyStripQuotes p.2)
    | none => false
  else false

/-- A straight or curly quote character, as named by the specification's
description of `KEY:VALUE` matching. -/
def isQuoteChar (c : Char) : Bool :=
  c = '"' ∨ c = '\'' ∨ c = '\u201C' ∨ c = '\u201D' ∨ c = '\u2018' ∨ c = '\u2019'

/-- Spec-side value normalization for a `KEY:VALUE` condition, following the
spec's words: "VALUE after trimming surrounding whitespace and any single
pair of enclosing straight or curly quote characters".  Used only to compare
the specified behaviour against `evaluate_condition`. -/
def stripOnePairQuotes (s : Str) : Str :=
  let t := pyStrip s
  if 2 ≤ t.length ∧ isQuoteChar (t.headD ' ') ∧ isQuoteChar (t.getLastD ' ') then
    (t.drop 1).dropLast
  else t

set_option linter.unusedVariables false in
/-- Python `s.split(sep)` for a non-empty string separator: non-overlapping
left-to-right splits, empty parts kept. -/
def splitOnSub (sep : Str) (s : Str) : List Str :=
  if hsep : sep = [] then [s]
  else
    match s with
    | [] => [[]]
    | c :: rest =>
        if startsWithL sep (c :: rest) then
          [] :: splitOnSub sep (List.drop sep.length (c :: rest))
        else
          match splitOnSub sep rest with
          | [] => [[c]]
          | h :: t => (c :: h) :: t
termination_by s.length
decreasing_by
  · simp only [List.length_drop, List.length_cons]
    have hlen : 1 ≤ sep.length := by
      cases sep with
      | nil => exact absurd rfl hsep
      | cons a l => simp
    omega
  · simp

/-- The OR-disjuncts of a query: `query.split(' OR ')`, each stripped. -/
def orGroupsOf (q : Str) : List Str :=
  (splitOnSub (s2l " OR ") q).map pyStrip

/-- The AND-conditions of one disjunct: `group.split(' AND ')`, stripped. -/
def andPartsOf (g : Str) : List Str :=
  (splitOnSub (s2l " AND ") g).map pyStrip

/-- `all(evaluate_condition(properties, part) for part in and_parts)`. -/
def groupMatches (props : StrDict) (g : Str) : Bool :=
  (andPartsOf g).all (evaluate_condition props)

/-- The inner `for group in or_groups: ... break` loop: a block is appended
once as soon as some disjunct matches. -/
def anyGroup (groups : List Str) (props : StrDict) : Bool :=
  groups.any (groupMatches props)

/-- `_perform_search_on_cache(all_blocks, query)` from src/ui.py (and the
same function in src/nicegui_ui.py). -/
def perform_search_on_cache (all_blocks : List Block) (query : Str) : List Block :=
  let ogs := orGroupsOf query
  all_blocks.foldl
    (fun res b => if anyGroup ogs b.properties then res ++ [b] else res) []

/-! ### Cache Synchronizer (`run_build_cache` in src/ui.py and
`_build_cache_sync` in src/nicegui_ui.py) -/

/-- The result of one synchronization pass: the in-memory cache it produced,
the entry count it returns, whether it called `save_cache`, and the list of
paths on which it invoked the Property Extractor. -/
structure SyncResult where
  cache : Cache
  count : Nat
  saved : Bool
  extracted : List Str
  deriving DecidableEq

/-- `old_cache[p].get("mtime", 0)` — only meaningful when `p` is cached. -/
def cachedMtime (old : Cache) (p : Str) : Int :=
  match alookup old p with
  | some e => e.mtimeField.getD 0
  | none => 0

/-- `new_files = current_files_set - old_files_set`, as the sublist of the
enumerated paths that are not cached. -/
def newFiles (old : Cache) (listed : List Str) : List Str :=
  listed.filter (fun p => (alookup old p).isNone)

/-- `deleted_files = old_files_set - current_files_set`. -/
def missingFiles (old : Cache) (listed : List Str) : List Str :=
  (old.map Prod.fst).filter (fun p => decide (p ∉ listed))

/-- `potentially_modified = old_files_set ∩ current_files_set`. -/
def potentiallyModified (old : Cache) (listed : List Str) : List Str :=
  (old.map Prod.fst).filter (fun p => decide (p ∈ listed))

/-- The paths added to `modified_files`: the live stat succeeded and the live
mtime is strictly greater than the cached one. -/
def modifiedFiles (old : Cache) (listed : List Str) (stat1 : Str → Option Int) :
    List Str :=
  (potentiallyModified old listed).filter
    (fun p =>
      match stat1 p with
      | some m => decide (cachedMtime old p < m)
      | none => false)

/-- The paths whose stat raised `FileNotFoundError` during the comparison
loop, re-classified into `deleted_files`. -/
def vanishedFiles (old : Cache) (listed : List Str) (stat1 : Str → Option Int) :
    List Str :=
  (potentiallyModified old listed).filter (fun p => (stat1 p).isNone)

/-- The final `deleted_files` set. -/
def deletedFiles (old : Cache) (listed : List Str) (stat1 : Str → Option Int) :
    List Str :=
  missingFiles old listed ++ vanishedFiles old listed stat1

/-- `files_to_process = new_files.union(modified_files)`. -/
def toProcess (old : Cache) (listed : List Str) (stat1 : Str → Option Int) :
    List Str :=
  newFiles old listed ++ modifiedFiles old listed stat1

/-- The body of the processing loop: stat the file again (a
`FileNotFoundError` pops the entry), then run the Extractor and store a fresh
entry `{"mtime": mtime, "blocks": blocks}`. -/
def processFile (stat2 : Str → Option Int) (extract : Str → List Block)
    (c : Cache) (p : Str) : Cache :=
  match stat2 p with
  | some m => pyDictSet c p ⟨some m, some (extract p)⟩
  | none => pyDictPop c p

/-- One synchronization pass (`_build_cache_sync` / `run_build_cache`), given
the loaded cache `old`, the enumerated relative paths `listed`, the stat
results of the comparison loop (`stat1`) and of the processing loop
(`stat2`), and the Extractor's per-path result `extract`. -/
def syncPass (old : Cache) (listed : List Str) (stat1 stat2 : Str → Option Int)
    (extract : Str → List Block) : SyncResult :=
  let tp := toProcess old listed stat1
  let del := deletedFiles old listed stat1
  if tp.isEmpty ∧ del.isEmpty then
    { cache := old, count := old.length, saved := false, extracted := [] }
  else
    let c1 := del.foldl pyDictPop old
    let c2 := tp.foldl (processFile stat2 extract) c1
    { cache := c2, count := c2.length, saved := true,
      extracted := tp.filter (fun p => (stat2 p).isSome) }

/-! ### Helper lemmas -/

section Helpers

variable {α : Type}

theorem alookup_pyDictSet_self (d : List (Str × α)) (k : Str) (v : α) :
    alookup (pyDictSet d k v) k = some v := by
  induction d with
  | nil => simp [pyDictSet, alookup]
  | cons pr rest ih =>
      by_cases h : pr.1 = k
      · simp [pyDictSet, h, alookup]
      · simp [pyDictSet, h, alookup, ih]

theorem alookup_pyDictSet_ne (d : List (Str × α)) {k' k : Str} (v : α)
    (h : k' ≠ k) : alookup (pyDictSet d k' v) k = alookup d k := by
  induction d with
  | nil => simp [pyDictSet, alookup, h]
  | cons pr rest ih =>
      by_cases hp : pr.1 = k'
      · simp [pyDictSet, hp, alookup, h, hp ▸ h]
      · simp only [pyDictSet, if_neg hp, alookup]
        by_cases hk : pr.1 = k
        · simp [hk]
        · simp [hk, ih]

theorem alookup_pyDictPop_ne (d : List (Str × α)) {k' k : Str} (h : k' ≠ k) :
    alookup (pyDictPop d k') k = alookup d k := by
  induction d with
  | nil => rfl
  | cons pr rest ih =>
      by_cases hp : pr.1 = k'
      · have hk : ¬ pr.1 = k := by rw [hp]; exact h
        simp [pyDictPop, hp, alookup, hk, ih, h]
      · simp only [pyDictPop, if_neg hp, alookup]
        by_cases hk : pr.1 = k
        · simp [hk]
        · simp [hk, ih]

theorem mem_pyDictSet (d : List (Str × α)) (k : Str) (v : α) {x : Str × α}
    (hx : x ∈ pyDictSet d k v) : x = (k, v) ∨ x ∈ d := by
  induction d with
  | nil => simpa [pyDictSet] using hx
  | cons pr rest ih =>
      by_cases h : pr.1 = k
      · simp only [pyDictSet, if_pos h, List.mem_cons] at hx
        rcases hx with hx | hx
        · exact Or.inl hx
        · exact Or.inr (List.mem_cons_of_mem _ hx)
      · simp only [pyDictSet, if_neg h, List.mem_cons] at hx
        rcases hx with hx | hx
        · exact Or.inr (hx ▸ List.mem_cons_self _ _)
        · rcases ih hx with hx' | hx'
          · exact Or.inl hx'
          · exact Or.inr (List.mem_cons_of_mem _ hx')

theorem mem_pyDictPop (d : List (Str × α)) (k : Str) {x : Str × α}
    (hx : x ∈ pyDictPop d k) : x ∈ d ∧ x.1 ≠ k := by
  induction d with
  | nil => simp [pyDictPop] at hx
  | cons pr rest ih =>
      by_cases hp : pr.1 = k
      · simp only [pyDictPop, if_pos hp] at hx
        exact ⟨List.mem_cons_of_mem _ (ih hx).1, (ih hx).2⟩
      · simp only [pyDictPop, if_neg hp, List.mem_cons] at hx
        rcases hx with rfl | hx
        · exact ⟨List.mem_cons_self _ _, hp⟩
        · exact ⟨List.mem_cons_of_mem _ (ih hx).1, (ih hx).2⟩

theorem alookup_isSome_iff (d : List (Str × α)) (k : Str) :
    (alookup d k).isSome ↔ k ∈ d.map Prod.fst := by
  induction d with
  | nil => simp [alookup]
  | cons pr rest ih =>
      simp only [alookup, List.map_cons, List.mem_cons]
      by_cases h : pr.1 = k
      · rw [if_pos h]
        exact iff_of_true rfl (Or.inl h.symm)
      · simp only [if_neg h]
        rw [ih]
        constructor
        · exact fun hm => Or.inr hm
        · rintro (hm | hm)
          · exact absurd hm.symm h
          · exact hm

theorem foldl_append_acc {β : Type} (f : α → List β) (l : List α) :
    ∀ acc : List β,
      l.foldl (fun a x => a ++ f x) acc = acc ++ (l.map f).flatten := by
  induction l with
  | nil => intro acc; simp
  | cons x l ih => intro acc; simp [ih, List.append_assoc]

theorem get_all_blocks_eq_flatten (c : Cache) :
    get_all_blocks_from_cache c = (c.map (fun pr => blocksOf pr.2)).flatten := by
  simpa using foldl_append_acc (fun pr : Str × CEntry => blocksOf pr.2) c []

theorem foldl_select_acc {P : α → Bool} (l : List α) :
    ∀ acc : List α,
      l.foldl (fun res b => if P b then res ++ [b] else res) acc =
        acc ++ l.filter P := by
  induction l with
  | nil => intro acc; simp
  | cons x l ih =>
      intro acc
      by_cases h : P x
      · simp [h, ih, List.filter_cons, List.append_assoc]
      · simp [h, ih, List.filter_cons]

theorem foldl_propStep_eq (lines : List Str) :
    ∀ d : StrDict,
      lines.foldl propStep d =
        (lines.filterMap lineProp).foldl (fun d pr => pyDictSet d pr.1 pr.2) d := by
  induction lines with
  | nil => intro d; rfl
  | cons line rest ih =>
      intro d
      simp only [List.foldl_cons, List.filterMap_cons]
      cases hl : lineProp line with
      | none => simp [propStep, hl, ih]
      | some pr => simp [propStep, hl, ih]

theorem find?_append_single {α : Type} (l : List α) (a : α) (p : α → Bool) :
    (l ++ [a]).find? p =
      match l.find? p with
      | some x => some x
      | none => if p a then some a else none := by
  induction l with
  | nil =>
      simp only [List.nil_append, List.find?]
      cases h : p a <;> simp [List.find?, h]
  | cons b l ih =>
      by_cases hb : p b
      · simp [List.find?_cons_of_pos _ hb]
      · simp [List.find?_cons_of_neg _ hb, ih]

theorem alookup_foldl_set (l : List (Str × Str)) :
    ∀ (d : StrDict) (k : Str),
      alookup (l.foldl (fun d pr => pyDictSet d pr.1 pr.2) d) k =
        match l.reverse.find? (fun pr => decide (pr.1 = k)) with
        | some pr => some pr.2
        | none => alookup d k := by
  induction l with
  | nil => intro d k; rfl
  | cons pr l ih =>
      intro d k
      rw [List.foldl_cons, ih, List.reverse_cons, find?_append_single]
      cases hf : l.reverse.find? (fun pr => decide (pr.1 = k)) with
      | some q => rfl
      | none =>
          by_cases h : pr.1 = k
          · simp [h, alookup_pyDictSet_self]
          · simp [h, alookup_pyDictSet_ne d pr.2 h]

theorem containsSub_single (a : Char) (s : Str) :
    containsSub [a] s = true ↔ a ∈ s := by
  induction s with
  | nil =>
      simp only [containsSub, startsWithL]
      simp
  | cons c rest ih =>
      unfold containsSub
      rw [Bool.or_eq_true, ih]
      unfold startsWithL
      rw [show startsWithL ([] : Str) rest = true from rfl, Bool.and_true,
        decide_eq_true_eq, List.mem_cons]

theorem splitOnce_append {c : Char} (K V : Str) (h : c ∉ K) :
    splitOnce c (K ++ c :: V) = (K, V) := by
  induction K with
  | nil => simp [splitOnce]
  | cons x xs ih =>
      have hx : x ≠ c := fun hc => h (hc ▸ List.mem_cons_self _ _)
      have hxs : c ∉ xs := fun hc => h (List.mem_cons_of_mem _ hc)
      simp [splitOnce, hx, ih hxs]

theorem mem_foldl_pop {α : Type} (l : List Str) :
    ∀ (d : List (Str × α)) (x : Str × α),
      x ∈ l.foldl pyDictPop d → x ∈ d ∧ x.1 ∉ l := by
  induction l with
  | nil => intro d x hx; exact ⟨hx, by simp⟩
  | cons a l ih =>
      intro d x hx
      obtain ⟨hx1, hx2⟩ := ih (pyDictPop d a) x hx
      obtain ⟨hxd, hxa⟩ := mem_pyDictPop d a hx1
      exact ⟨hxd, by simp [hxa, hx2]⟩

theorem alookup_foldl_pop {α : Type} (l : List Str) :
    ∀ (d : List (Str × α)) (p : Str), p ∉ l →
      alookup (l.foldl pyDictPop d) p = alookup d p := by
  induction l with
  | nil => intro d p _; rfl
  | cons a l ih =>
      intro d p hp
      have ha : a ≠ p := fun h => hp (h ▸ List.mem_cons_self _ _)
      have hl : p ∉ l := fun h => hp (List.mem_cons_of_mem _ h)
      rw [List.foldl_cons, ih _ p hl, alookup_pyDictPop_ne d ha]

theorem mem_foldl_processFile (stat2 : Str → Option Int)
    (extract : Str → List Block) (l : List Str) :
    ∀ (c : Cache) (x : Str × CEntry),
      x ∈ l.foldl (processFile stat2 extract) c → x ∈ c ∨ x.1 ∈ l := by
  induction l with
  | nil => intro c x hx; exact Or.inl hx
  | cons a l ih =>
      intro c x hx
      rcases ih (processFile stat2 extract c a) x hx with hx' | hx'
      · unfold processFile at hx'
        cases ha : stat2 a with
        | some m =>
            rw [ha] at hx'
            rcases mem_pyDictSet c a _ hx' with rfl | hx''
            · exact Or.inr (List.mem_cons_self _ _)
            · exact Or.inl hx''
        | none =>
            rw [ha] at hx'
            exact Or.inl (mem_pyDictPop c a hx').1
      · exact Or.inr (List.mem_cons_of_mem _ hx')

theorem alookup_foldl_processFile (stat2 : Str → Option Int)
    (extract : Str → List Block) (l : List Str) :
    ∀ (c : Cache) (p : Str), p ∉ l →
      alookup (l.foldl (processFile stat2 extract) c) p = alookup c p := by
  induction l with
  | nil => intro c p _; rfl
  | cons a l ih =>
      intro c p hp
      have ha : a ≠ p := fun h => hp (h ▸ List.mem_cons_self _ _)
      have hl : p ∉ l := fun h => hp (List.mem_cons_of_mem _ h)
      rw [List.foldl_cons, ih _ p hl]
      unfold processFile
      cases stat2 a with
      | some m => exact alookup_pyDictSet_ne c _ ha
      | none => exact alookup_pyDictPop_ne c ha

/-- A path classified as deleted is never also selected for processing. -/
theorem deleted_not_toProcess (old : Cache) (listed : List Str)
    (stat1 : Str → Option Int) {p : Str}
    (hdel : p ∈ deletedFiles old listed stat1) :
    p ∉ toProcess old listed stat1 := by
  intro htp
  rcases List.mem_append.mp htp with hnew | hmod
  · -- p is new: not cached
    have h1 := (List.mem_filter.mp hnew).1
    have h2 := (List.mem_filter.mp hnew).2
    rcases List.mem_append.mp hdel with hmiss | hvan
    · -- missing: not listed
      have := (List.mem_filter.mp hmiss).2
      simp only [decide_eq_true_eq] at this
      exact this h1
    · -- vanished: cached
      have hkeys := (List.mem_filter.mp ((List.mem_filter.mp hvan).1)).1
      have := (alookup_isSome_iff old p).mpr hkeys
      simp only [Option.isNone_iff_eq_none] at h2
      rw [h2] at this
      simp at this
  · -- p is modified: stat succeeded and p is listed
    have hmem := (List.mem_filter.mp hmod).1
    have hcond := (List.mem_filter.mp hmod).2
    have hlist := (List.mem_filter.mp hmem).2
    simp only [decide_eq_true_eq] at hlist
    rcases List.mem_append.mp hdel with hmiss | hvan
    · have := (List.mem_filter.mp hmiss).2
      simp only [decide_eq_true_eq] at this
      exact this hlist
    · have hnone := (List.mem_filter.mp hvan).2
      simp only [Option.isNone_iff_eq_none] at hnone
      rw [hnone] at hcond
      simp at hcond

theorem filter_eq_nil_of {α : Type} {p : α → Bool} {l : List α}
    (h : ∀ a ∈ l, p a = false) : l.filter p = [] := by
  induction l with
  | nil => rfl
  | cons a l ih =>
      rw [List.filter_cons, h a (List.mem_cons_self _ _)]
      simp only [Bool.false_eq_true, if_false]
      exact ih (fun b hb => h b (List.mem_cons_of_mem _ hb))

theorem mem_foldl_blockStep (stem : Str) (l : List Str) :
    ∀ (acc : List Block) (b : Block),
      b ∈ l.foldl (blockStep stem) acc →
        b ∈ acc ∨ (b.properties ≠ [] ∧ b.page = stem) := by
  induction l with
  | nil => intro acc b hb; exact Or.inl hb
  | cons bc l ih =>
      intro acc b hb
      rcases ih (blockStep stem acc bc) b hb with hb' | hb'
      · simp only [blockStep] at hb'
        by_cases h1 : containsSub (s2l "::") bc = true
        · rw [if_neg (by simp [h1])] at hb'
          by_cases h2 : parse_properties bc ≠ []
          · rw [if_pos h2] at hb'
            rcases List.mem_append.mp hb' with h | h
            · exact Or.inl h
            · have hb2 : b = ⟨stem, bc, parse_properties bc⟩ := by simpa using h
              subst hb2
              exact Or.inr ⟨h2, rfl⟩
          · rw [if_neg h2] at hb'
            exact Or.inl hb'
        · rw [if_pos (by simp [h1])] at hb'
          exact Or.inl hb'
      · exact Or.inr hb'

end Helpers

/-! ### Claims -/

/-- C1 counterexample.  The block `"k:: a\nk:: b"` contains two property
lines with the same key `k`; the extracted mapping binds `k` to `"b"`, the
value of the *last* occurrence, not to `"a"`, the value of the first
occurrence as the claim states. -/
theorem C1_counterexample :
    alookup (parse_properties (s2l "k:: a\nk:: b")) (s2l "k") = some (s2l "b")
    ∧ alookup (parse_properties (s2l "k:: a\nk:: b")) (s2l "k") ≠ some (s2l "a") := by
  constructor
  · rfl
  · decide

/-- C1 (amended): for every block text, the extracted property mapping binds
a key to the value of its *last* occurrence among the block's property lines
(`properties[key] = value` overwrites the earlier binding; the key keeps the
position of its first occurrence, but the value stored is the last one). -/
theorem C1_last_occurrence_wins (block : Str) (k : Str) :
    alookup (parse_properties block) k =
      ((extractedPairs block).reverse.find?
        (fun pr => decide (pr.1 = k))).map Prod.snd := by
  unfold parse_properties extractedPairs
  rw [foldl_propStep_eq, alookup_foldl_set]
  cases hf : ((splitChar '\n' block).filterMap lineProp).reverse.find?
      (fun pr => decide (pr.1 = k)) with
  | some pr => rfl
  | none => rfl

/-- C8 (code bug evaluation).  `load_cache` returns an empty cache when the
file is absent, unreadable (`IOError`) or fails to parse
(`json.JSONDecodeError`), but a cache file whose bytes are not valid UTF-8
raises `UnicodeDecodeError` — a `ValueError`, caught by neither handler —
contradicting the claim (and the function's own docstring) that it never
raises. -/
theorem C8_load_cache_eval :
    (load_cache ⟨false, .badUtf8⟩).1 = Except.error PyError.unicodeDecodeError
    ∧ (load_cache ⟨false, .absent⟩).1 = Except.ok []
    ∧ (load_cache ⟨false, .ioError⟩).1 = Except.ok []
    ∧ (load_cache ⟨false, .badJson⟩).1 = Except.ok [] :=
  ⟨rfl, rfl, rfl, rfl⟩

/-- C9: flattening a cache never fails on an entry that lacks the `"blocks"`
field — such an entry contributes the empty sequence
(`file_info.get("blocks", [])`), and the result is the concatenation of every
entry's blocks in cache iteration order. -/
theorem C9_flatten_totality :
    (∀ c : Cache,
        get_all_blocks_from_cache c = (c.map (fun pr => blocksOf pr.2)).flatten)
    ∧ (∀ m : Option Int, blocksOf ⟨m, none⟩ = [])
    ∧ get_all_blocks_from_cache
        [(s2l "a", ⟨some 1, none⟩),
         (s2l "b", ⟨some 2, some [⟨s2l "b", s2l "c", [(s2l "k", s2l "v")]⟩]⟩)] =
      [⟨s2l "b", s2l "c", [(s2l "k", s2l "v")]⟩] :=
  ⟨get_all_blocks_eq_flatten, fun _ => rfl, rfl⟩

/-- C10: every Cache Store operation goes through `get_cache_dir`, whose
`mkdir(exist_ok=True)` creates the cache directory when missing: after `load`
or `save` the directory exists; `clear` first recreates the directory, so its
"directory does not exist" branch is unreachable and its result is exactly
the success of `rmtree` — in particular clearing with the directory initially
absent recreates it, removes it, and reports success. -/
theorem C10_cache_dir_side_effects :
    (∀ fs : FsState, (load_cache fs).2.cacheDirExists = true)
    ∧ (∀ (fs : FsState) (c : Cache) (wok : Bool),
        (save_cache fs c wok).cacheDirExists = true)
    ∧ (∀ fs : FsState, (get_cache_dir fs).cacheDirExists = true)
    ∧ (∀ (fs : FsState) (rok : Bool), (clear_all_cache fs rok).1 = rok)
    ∧ (∀ f : CacheFileContent,
        clear_all_cache ⟨false, f⟩ true = (true, ⟨false, .absent⟩)) := by
  refine ⟨?_, ?_, ?_, ?_, ?_⟩
  · intro fs
    rcases fs with ⟨d, f⟩
    cases f <;> rfl
  · intro fs c wok
    rcases fs with ⟨d, f⟩
    cases wok <;> rfl
  · intro fs
    rfl
  · intro fs rok
    rcases fs with ⟨d, f⟩
    cases rok <;> rfl
  · intro f
    rfl

/-- C6: the query evaluator returns exactly the sublist of the input blocks
for which at least one OR-disjunct has all its AND-conditions true — i.e. the
result equals `filter` of the match predicate, so the original order is
preserved and each input occurrence appears at most once (the inner loop
`break`s after the first matching disjunct). -/
theorem C6_stable_filter (blocks : List Block) (query : Str) :
    perform_search_on_cache blocks query =
      blocks.filter (fun b => anyGroup (orGroupsOf query) b.properties)
    ∧ (perform_search_on_cache blocks query).Sublist blocks := by
  have h := foldl_select_acc
    (P := fun b => anyGroup (orGroupsOf query) b.properties) blocks []
  have heq : perform_search_on_cache blocks query =
      blocks.filter (fun b => anyGroup (orGroupsOf query) b.properties) := by
    simpa [perform_search_on_cache, anyGroup] using h
  exact ⟨heq, heq ▸ List.filter_sublist blocks⟩

/-- C7: every block the extractor outputs has a non-empty property mapping
and its page field equals the file's stem; a line contributes a property only
when both the trimmed key and the trimmed value are non-empty — in particular
a `"key::"` line (empty value) contributes nothing. -/
theorem C7_extractor_guarantees :
    (∀ (stem content : Str), ∀ b ∈ process_single_file stem content,
        b.properties ≠ [] ∧ b.page = stem)
    ∧ (∀ line k v, lineProp line = some (k, v) → k ≠ [] ∧ v ≠ [])
    ∧ (∀ d : StrDict, propStep d (s2l "key::") = d) := by
  refine ⟨?_, ?_, ?_⟩
  · intro stem content b hb
    rcases mem_foldl_blockStep stem _ [] b hb with h | h
    · simp at h
    · exact h
  · intro line k v h
    unfold lineProp at h
    cases hm : matchKV (pyLStripDashSpace line) with
    | none => rw [hm] at h; exact absurd h (by simp)
    | some g =>
        rw [hm] at h
        rcases g with ⟨g1, g2⟩
        by_cases hg : pyStrip g1 ≠ [] ∧ pyStrip g2 ≠ []
        · simp only [if_pos hg] at h
          have hk : k = pyStrip g1 := by
            injection h with h'
            exact (congrArg Prod.fst h').symm
          have hv : v = pyStrip g2 := by
            injection h with h'
            exact (congrArg Prod.snd h').symm
          exact ⟨hk ▸ hg.1, hv ▸ hg.2⟩
        · simp only [if_neg hg] at h
          exact absurd h (by simp)
  · intro d
    rfl

/-- C7 witness: a concrete file containing one property line. -/
theorem C7_witness :
    (Block.mk (s2l "page1") ('\n' :: s2l "type:: book")
        [(s2l "type", s2l "book")]
      ∈ process_single_file (s2l "page1") (s2l "type:: book"))
    ∧ ((Block.mk (s2l "page1") ('\n' :: s2l "type:: book")
          [(s2l "type", s2l "book")]).properties ≠ []
       ∧ (Block.mk (s2l "page1") ('\n' :: s2l "type:: book")
            [(s2l "type", s2l "book")]).page = s2l "page1") :=
  ⟨by decide,
   C7_extractor_guarantees.1 (s2l "page1") (s2l "type:: book") _ (by decide)⟩

/-- C2 counterexample.  For the stored mapping `{type: book}` and the
condition `type: book` (one space after the colon), the claim's rule —
compare the stored value against VALUE with surrounding whitespace trimmed —
demands a match, but `evaluate_condition` strips only quote characters from
VALUE (`value.strip('"\'')`), not whitespace, and returns false. -/
theorem C2_counterexample :
    evaluate_condition [(s2l "type", s2l "book")] (s2l "type: book") = false
    ∧ alookup [(s2l "type", s2l "book")] (s2l "type") = some (s2l "book")
    ∧ pyStrip (s2l "book") = stripOnePairQuotes (s2l " book") := by
  refine ⟨?_, rfl, rfl⟩
  decide

/-- C2 (amended): for every condition of the form `KEY:VALUE` (no `~`
anywhere, no `:` inside KEY, not a `has:` condition, no surrounding
whitespace), the evaluator returns true iff KEY is present and its stored
value, after trimming surrounding whitespace, equals VALUE after removing
every leading and trailing straight single- or double-quote character —
VALUE's surrounding whitespace is not trimmed and curly quotes are not
stripped.  In particular `type:"book"` matches a stored value of `book`. -/
theorem C2_exact_match_semantics (props : StrDict) (KEY VALUE : Str)
    (hkc : ':' ∉ KEY) (hkt : '~' ∉ KEY) (hvt : '~' ∉ VALUE)
    (hhas : startsWithL (s2l "has:") (KEY ++ ':' :: VALUE) = false)
    (hstrip : pyStrip (KEY ++ ':' :: VALUE) = KEY ++ ':' :: VALUE) :
    evaluate_condition props (KEY ++ ':' :: VALUE) = true ↔
      ∃ pv, alookup props KEY = some pv ∧ pyStrip pv = pyStripQuotes VALUE := by
  have ht : containsSub [ '~' ] (KEY ++ ':' :: VALUE) = false := by
    rw [Bool.eq_false_iff]
    intro hcon
    rcases List.mem_append.mp ((containsSub_single _ _).mp hcon) with h | h
    · exact hkt h
    · rcases List.mem_cons.mp h with h | h
      · exact absurd h (by decide)
      · exact hvt h
  have hc : containsSub [ ':' ] (KEY ++ ':' :: VALUE) = true :=
    (containsSub_single _ _).mpr
      (List.mem_append.mpr (Or.inr (List.mem_cons_self _ _)))
  simp only [evaluate_condition, hstrip, hhas, ht, hc,
    Bool.false_eq_true, if_false, if_true, splitOnce_append KEY VALUE hkc]
  cases ha : alookup props KEY with
  | none => simp
  | some pv => simp

/-- C2 witness: `type:"book"` against the stored mapping `{type: book}`. -/
theorem C2_witness :
    (':' ∉ s2l "type") ∧ ('~' ∉ s2l "type") ∧ ('~' ∉ s2l "\"book\"")
    ∧ (startsWithL (s2l "has:") (s2l "type" ++ ':' :: s2l "\"book\"") = false)
    ∧ (pyStrip (s2l "type" ++ ':' :: s2l "\"book\"")
        = s2l "type" ++ ':' :: s2l "\"book\"")
    ∧ evaluate_condition [(s2l "type", s2l "book")]
        (s2l "type" ++ ':' :: s2l "\"book\"") = true := by
  refine ⟨by decide, by decide, by decide, by decide, by decide, ?_⟩
  exact (C2_exact_match_semantics [(s2l "type", s2l "book")]
      (s2l "type") (s2l "\"book\"") (by decide) (by decide) (by decide)
      (by decide) (by decide)).mpr ⟨s2l "book", by decide, by decide⟩

/-- C3: when no file is new (every enumerated path is cached), none is
deleted (every cached path is enumerated) and none is modified (every live
stat succeeds with an mtime not exceeding the cached one), the pass is a
no-op: the Extractor is never invoked, the cache is not saved, and the prior
entry count is returned with the cache unchanged. -/
theorem C3_noop_pass (old : Cache) (listed : List Str)
    (stat1 stat2 : Str → Option Int) (extract : Str → List Block)
    (hnew : ∀ p ∈ listed, p ∈ old.map Prod.fst)
    (hdel : ∀ p ∈ old.map Prod.fst, p ∈ listed)
    (hmod : ∀ p ∈ old.map Prod.fst,
        ∃ m, stat1 p = some m ∧ m ≤ cachedMtime old p) :
    syncPass old listed stat1 stat2 extract =
      { cache := old, count := old.length, saved := false, extracted := [] } := by
  have hnewF : newFiles old listed = [] := by
    apply filter_eq_nil_of
    intro p hp
    have h := (alookup_isSome_iff old p).mpr (hnew p hp)
    cases hal : alookup old p with
    | none => rw [hal] at h; simp at h
    | some e => simp [hal]
  have hmissF : missingFiles old listed = [] := by
    apply filter_eq_nil_of
    intro p hp
    simp only [decide_eq_false_iff_not, not_not]
    exact hdel p hp
  have hmodF : modifiedFiles old listed stat1 = [] := by
    apply filter_eq_nil_of
    intro p hp
    have hpk : p ∈ old.map Prod.fst := (List.mem_filter.mp hp).1
    rcases hmod p hpk with ⟨m, hm, hle⟩
    rw [hm]
    simp only [decide_eq_false_iff_not, not_lt]
    exact hle
  have hvanF : vanishedFiles old listed stat1 = [] := by
    apply filter_eq_nil_of
    intro p hp
    have hpk : p ∈ old.map Prod.fst := (List.mem_filter.mp hp).1
    rcases hmod p hpk with ⟨m, hm, _⟩
    rw [hm]
    rfl
  simp [syncPass, toProcess, deletedFiles, hnewF, hmodF, hmissF, hvanF]

/-- C3 witness: one cached, unchanged file. -/
theorem C3_witness :
    (∀ p ∈ [s2l "a"],
        p ∈ ([(s2l "a", CEntry.mk (some 5) (some []))] : Cache).map Prod.fst)
    ∧ (∀ p ∈ ([(s2l "a", CEntry.mk (some 5) (some []))] : Cache).map Prod.fst,
        p ∈ [s2l "a"])
    ∧ syncPass [(s2l "a", CEntry.mk (some 5) (some []))] [s2l "a"]
        (fun _ => some 5) (fun _ => none) (fun _ => []) =
      { cache := [(s2l "a", CEntry.mk (some 5) (some []))], count := 1,
        saved := false, extracted := [] } := by
  refine ⟨by decide, by decide, ?_⟩
  exact C3_noop_pass _ _ _ _ _ (by decide) (by decide)
    (by
      intro p hp
      have hpa : p = s2l "a" := by simpa using hp
      subst hpa
      exact ⟨5, rfl, by decide⟩)

/-- C4: a path present in both the old cache and the live file set is
selected for re-extraction iff its live stat succeeds with an mtime strictly
greater than the cached one (equivalently, iff it lands in `modified_files`);
an equal mtime means it is not reprocessed, and a stat that fails because the
file vanished mid-scan reclassifies the path as deleted. -/
theorem C4_modified_classification (old : Cache) (listed : List Str)
    (stat1 : Str → Option Int) (p : Str)
    (hp : p ∈ old.map Prod.fst) (hl : p ∈ listed) :
    (p ∈ modifiedFiles old listed stat1 ↔
        ∃ m, stat1 p = some m ∧ cachedMtime old p < m)
    ∧ (p ∈ toProcess old listed stat1 ↔ p ∈ modifiedFiles old listed stat1)
    ∧ (stat1 p = some (cachedMtime old p) → p ∉ toProcess old listed stat1)
    ∧ (stat1 p = none → p ∈ deletedFiles old listed stat1) := by
  have hpm : p ∈ potentiallyModified old listed :=
    List.mem_filter.mpr ⟨hp, by simpa using hl⟩
  have hnotnew : p ∉ newFiles old listed := by
    intro h
    have h2 := (List.mem_filter.mp h).2
    have h3 := (alookup_isSome_iff old p).mpr hp
    cases hal : alookup old p with
    | none => rw [hal] at h3; simp at h3
    | some e => rw [hal] at h2; simp at h2
  have hmodiff : p ∈ modifiedFiles old listed stat1 ↔
      ∃ m, stat1 p = some m ∧ cachedMtime old p < m := by
    constructor
    · intro h
      have hc := (List.mem_filter.mp h).2
      cases hs : stat1 p with
      | none => rw [hs] at hc; simp at hc
      | some m =>
          rw [hs] at hc
          exact ⟨m, rfl, by simpa using hc⟩
    · rintro ⟨m, hm, hlt⟩
      refine List.mem_filter.mpr ⟨hpm, ?_⟩
      rw [hm]
      simpa using hlt
  have htpiff : p ∈ toProcess old listed stat1 ↔
      p ∈ modifiedFiles old listed stat1 := by
    constructor
    · intro h
      rcases List.mem_append.mp h with h | h
      · exact absurd h hnotnew
      · exact h
    · intro h
      exact List.mem_append.mpr (Or.inr h)
  refine ⟨hmodiff, htpiff, ?_, ?_⟩
  · intro hs htp
    rcases hmodiff.mp (htpiff.mp htp) with ⟨m, hm, hlt⟩
    rw [hs] at hm
    injection hm with hm'
    rw [hm'] at hlt
    exact lt_irrefl _ hlt
  · intro hs
    refine List.mem_append.mpr (Or.inr (List.mem_filter.mpr ⟨hpm, ?_⟩))
    rw [hs]
    rfl

/-- C4 witness: a cached file whose live mtime (7) exceeds the cached one
(5). -/
theorem C4_witness :
    (s2l "a" ∈ ([(s2l "a", CEntry.mk (some 5) (some []))] : Cache).map Prod.fst)
    ∧ (s2l "a" ∈ [s2l "a"])
    ∧ ((s2l "a" ∈ modifiedFiles [(s2l "a", CEntry.mk (some 5) (some []))]
          [s2l "a"] (fun _ => some 7) ↔
        ∃ m, (fun _ : Str => (some 7 : Option Int)) (s2l "a") = some m ∧
          cachedMtime [(s2l "a", CEntry.mk (some 5) (some []))] (s2l "a") < m)
       ∧ (s2l "a" ∈ toProcess [(s2l "a", CEntry.mk (some 5) (some []))]
            [s2l "a"] (fun _ => some 7) ↔
          s2l "a" ∈ modifiedFiles [(s2l "a", CEntry.mk (some 5) (some []))]
            [s2l "a"] (fun _ => some 7))
       ∧ ((fun _ : Str => (some 7 : Option Int)) (s2l "a") =
            some (cachedMtime [(s2l "a", CEntry.mk (some 5) (some []))]
              (s2l "a")) →
          s2l "a" ∉ toProcess [(s2l "a", CEntry.mk (some 5) (some []))]
            [s2l "a"] (fun _ => some 7))
       ∧ ((fun _ : Str => (some 7 : Option Int)) (s2l "a") = none →
          s2l "a" ∈ deletedFiles [(s2l "a", CEntry.mk (some 5) (some []))]
            [s2l "a"] (fun _ => some 7))) :=
  ⟨by decide, by decide,
   C4_modified_classification _ _ _ _ (by decide) (by decide)⟩

/-- C5: every path classified as deleted is absent from the resulting cache
(no entry of the result carries its key, so its blocks cannot appear in any
flattening of that cache — every flattened block comes from an entry with a
different key), and a path that is neither deleted nor selected for
processing keeps exactly its old cache entry. -/
theorem C5_deletion_and_carryover (old : Cache) (listed : List Str)
    (stat1 stat2 : Str → Option Int) (extract : Str → List Block) (p : Str) :
    (p ∈ deletedFiles old listed stat1 →
        (∀ x ∈ (syncPass old listed stat1 stat2 extract).cache, x.1 ≠ p)
        ∧ (∀ b ∈ get_all_blocks_from_cache
              (syncPass old listed stat1 stat2 extract).cache,
            ∃ x, x ∈ (syncPass old listed stat1 stat2 extract).cache
              ∧ b ∈ blocksOf x.2 ∧ x.1 ≠ p))
    ∧ (p ∉ deletedFiles old listed stat1 → p ∉ toProcess old listed stat1 →
        alookup (syncPass old listed stat1 stat2 extract).cache p =
          alookup old p) := by
  constructor
  · intro hdel
    have htp := deleted_not_toProcess old listed stat1 hdel
    have hkey : ∀ x ∈ (syncPass old listed stat1 stat2 extract).cache,
        x.1 ≠ p := by
      intro x hx
      simp only [syncPass] at hx
      by_cases hg : (toProcess old listed stat1).isEmpty = true ∧
          (deletedFiles old listed stat1).isEmpty = true
      · exfalso
        have hnil : deletedFiles old listed stat1 = [] := by
          simpa [List.isEmpty_iff] using hg.2
        rw [hnil] at hdel
        simp at hdel
      · rw [if_neg hg] at hx
        rcases mem_foldl_processFile stat2 extract _ _ x hx with hx1 | hx1
        · intro he
          apply (mem_foldl_pop _ _ x hx1).2
          rw [he]
          exact hdel
        · intro he
          rw [he] at hx1
          exact htp hx1
    refine ⟨hkey, ?_⟩
    intro b hb
    rw [get_all_blocks_eq_flatten] at hb
    rcases List.mem_flatten.mp hb with ⟨bl, hbl, hbbl⟩
    rcases List.mem_map.mp hbl with ⟨x, hx, rfl⟩
    exact ⟨x, hx, hbbl, hkey x hx⟩
  · intro hdel htp
    simp only [syncPass]
    by_cases hg : (toProcess old listed stat1).isEmpty = true ∧
        (deletedFiles old listed stat1).isEmpty = true
    · rw [if_pos hg]
    · rw [if_neg hg]
      show alookup ((toProcess old listed stat1).foldl
          (processFile stat2 extract)
          ((deletedFiles old listed stat1).foldl pyDictPop old)) p =
        alookup old p
      rw [alookup_foldl_processFile stat2 extract _ _ p htp,
        alookup_foldl_pop _ _ p hdel]

/-- C5 witness: file `a` is deleted (cached but not on disk), file `b` is
carried over unchanged. -/
theorem C5_witness :
    (s2l "a" ∈ deletedFiles
        [(s2l "a", CEntry.mk (some 0) (some [])),
         (s2l "b", CEntry.mk (some 0) (some []))]
        [s2l "b"] (fun _ => some 0))
    ∧ (∀ x ∈ (syncPass
          [(s2l "a", CEntry.mk (some 0) (some [])),
           (s2l "b", CEntry.mk (some 0) (some []))]
          [s2l "b"] (fun _ => some 0) (fun _ => none) (fun _ => [])).cache,
        x.1 ≠ s2l "a")
    ∧ (s2l "b" ∉ deletedFiles
        [(s2l "a", CEntry.mk (some 0) (some [])),
         (s2l "b", CEntry.mk (some 0) (some []))]
        [s2l "b"] (fun _ => some 0))
    ∧ (s2l "b" ∉ toProcess
        [(s2l "a", CEntry.mk (some 0) (some [])),
         (s2l "b", CEntry.mk (some 0) (some []))]
        [s2l "b"] (fun _ => some 0))
    ∧ alookup (syncPass
          [(s2l "a", CEntry.mk (some 0) (some [])),
           (s2l "b", CEntry.mk (some 0) (some []))]
          [s2l "b"] (fun _ => some 0) (fun _ => none) (fun _ => [])).cache
        (s2l "b") =
      alookup
        [(s2l "a", CEntry.mk (some 0) (some [])),
         (s2l "b", CEntry.mk (some 0) (some []))] (s2l "b") :=
  ⟨by decide,
   ((C5_deletion_and_carryover _ _ _ _ _ (s2l "a")).1 (by decide)).1,
   by decide, by decide,
   (C5_deletion_and_carryover _ _ _ _ _ (s2l "b")).2 (by decide) (by decide)⟩

end LogseqPV
